import Mathlib

/-!
Verification of the pinbrd ("Pinlab") repository.

This file shallowly embeds the parts of the source that the claims are
about:

* `Blob::walk` and `Blob::update` from `src/graph.rs` (content-addressed
  blob repair over a directory tree),
* `handle_promise` from `src/main.rs` (the promise bridge),
* the dialog-cancellation paths `PinboardBuffer::save_as`,
  `PinboardBuffer::add_blob`, `PinlabApp::open_pinboard` and their
  call-site result handlers,
* the pinboard save/load round trip (serde-derived JSON serialization,
  modelled from the spec because the derived codec is library code).

The file system visible to `walk` is modelled as a tree in which every
possible I/O outcome of the source's calls (`hf::is_hidden`,
`std::fs::read`, `std::fs::read_dir`) is explicit data, so the embedded
functions are pure and executable.
-/

namespace Pinbrd

/-- File content (`Vec<u8>` in the source), as a list of bytes. -/
abbrev Content := List Nat

/-- A blake3 content hash value.  The hash function itself is an explicit
parameter of the embedded operations, so theorems quantify over it. -/
abbrev HashV := Nat

/-- A filesystem path (`PathBuf`), as its list of components. -/
abbrev FPath := List String

/-- The errors `Blob::walk` can produce (in the source these are distinct
`std::io::Error` values propagated through `?`, and the distinct
`anyhow!("multiple files matching targeted hash ...")` ambiguity error). -/
inductive FsError where
  /-- `std::fs::read(&path)` failed on a visible non-directory entry. -/
  | readFailed
  /-- `std::fs::read_dir(dir)` (or iterating its entries) failed. -/
  | listFailed
  /-- the "multiple files matching targeted hash ... aborting
  auto-repairing" ambiguity error. -/
  | multiMatch
deriving DecidableEq

/-- `BlobType` from `src/graph.rs`. -/
inductive BlobType where
  | pinboardGraph
  | file
deriving DecidableEq

/-- `Blob` from `src/graph.rs`: `ty`, `path`, `hash`. -/
structure Blob where
  ty : BlobType
  path : FPath
  hash : HashV
deriving DecidableEq

mutual
/-- A node of the file system as observed by `Blob::walk`.  Each entry
records the outcome of `hf::is_hidden` on it (`none` models the check
erroring, in which case the source's `.unwrap_or(true)` treats it as
hidden), and either its readable content (`none` models `std::fs::read`
failing), or — for a directory — its listing (`dirE` models
`std::fs::read_dir` failing). -/
inductive FSTree where
  | file (hidden : Option Bool) (content : Option Content)
  | dirE (hidden : Option Bool)
  | dir (hidden : Option Bool) (entries : EntryList)

/-- The listing of a directory: named entries in iteration order. -/
inductive EntryList where
  | nil
  | cons (name : String) (t : FSTree) (rest : EntryList)
end

/-- The source's `hf::is_hidden(&path).unwrap_or(true)`: an entry whose
hidden-check errors is treated as hidden. -/
def effHidden : Option Bool → Bool
  | some b => b
  | none => true

/-- The `is_hidden` outcome recorded on a tree node. -/
def FSTree.hiddenOf : FSTree → Option Bool
  | .file h _ => h
  | .dirE h => h
  | .dir h _ => h

/-- Last-match-wins combination of the `res` accumulator: in the source,
each later assignment `res = Some(matched)` overwrites the earlier one. -/
def optOr : Option α → Option α → Option α
  | some a, _ => some a
  | none, b => b

mutual
/-- One iteration of the `for entry in std::fs::read_dir(dir)?` loop body
of `Blob::walk` (`src/graph.rs` lines 52-70), returning the loop's
contribution to `(res, count)` for this entry, whose full path is `p`.
For a visible subdirectory the recursive `Self::walk` call is inlined:
its body is the fold over the listing followed by the `count > 1` check. -/
def walkEntry (hashFn : Content → HashV) (target : HashV) (p : FPath) (t : FSTree) :
    Except FsError (Option FPath × Nat) :=
  match t with
  | .file h c =>
    if effHidden h then .ok (none, 0)
    else
      match c with
      | none => .error .readFailed
      | some c => if hashFn c = target then .ok (some p, 1) else .ok (none, 0)
  | .dirE h =>
    -- `path.is_dir()` holds, so the source recurses and the recursive
    -- call's `std::fs::read_dir(dir)?` fails.
    if effHidden h then .ok (none, 0) else .error .listFailed
  | .dir h l =>
    if effHidden h then .ok (none, 0)
    else
      match walkEntries hashFn target p l with
      | .error e => .error e
      | .ok (res, count) =>
        if count > 1 then .error .multiMatch
        else
          match res with
          | some m => .ok (some m, 1)
          | none => .ok (none, 0)

/-- The whole `for` loop of `Blob::walk` over a directory listing,
accumulating `(res, count)` left to right; errors abort the loop via `?`.
`p` is the directory's path; each entry's path is `p ++ [name]`. -/
def walkEntries (hashFn : Content → HashV) (target : HashV) (p : FPath) (l : EntryList) :
    Except FsError (Option FPath × Nat) :=
  match l with
  | .nil => .ok (none, 0)
  | .cons n t rest =>
    match walkEntry hashFn target (p ++ [n]) t with
    | .error e => .error e
    | .ok (r1, c1) =>
      match walkEntries hashFn target p rest with
      | .error e => .error e
      | .ok (r2, c2) => .ok (optOr r2 r1, c1 + c2)
end

/-- `Blob::walk(dir, hash)` from `src/graph.rs`: if `dir` is not a
directory the loop is skipped and `Ok(None)` is returned; otherwise the
listing is folded and `count > 1` yields the ambiguity error. -/
def walk (hashFn : Content → HashV) (target : HashV) (p : FPath) (t : FSTree) :
    Except FsError (Option FPath) :=
  match t with
  | .file _ _ => .ok none
  | .dirE _ => .error .listFailed
  | .dir _ l =>
    match walkEntries hashFn target p l with
    | .error e => .error e
    | .ok (res, count) => if count > 1 then .error .multiMatch else .ok res

/-- The outcome of `self.path.try_exists()` at the start of
`Blob::update`, together with (in the `Ok(true)` case) the outcome of
`std::fs::read(&self.path)` on the stored path (`none` = read fails). -/
inductive ExistsCheck where
  | yes (content : Option Content)
  | no
  | err

/-- `Blob::update(&mut self, root)` from `src/graph.rs`: returns the
`anyhow::Result<()>` together with the final state of the blob (the
source mutates in place; every early `?` return happens before any field
assignment, so on error the blob is as it was). -/
def update (hashFn : Content → HashV) (exc : ExistsCheck) (rootPath : FPath)
    (root : FSTree) (b : Blob) : Except FsError Unit × Blob :=
  match exc with
  | .yes none => (.error .readFailed, b)
  | .yes (some c) => (.ok (), { b with hash := hashFn c })
  | .no =>
    match walk hashFn b.hash rootPath root with
    | .error e => (.error e, b)
    | .ok (some p) => (.ok (), { b with path := p })
    | .ok none => (.ok (), b)
  | .err => (.ok (), b)

mutual
/-- Specification-side enumeration (in iteration order) of the full paths
of the visible matches contributed by one directory entry: unhidden files
whose readable content hashes to `target`, recursing only into unhidden
listable directories. -/
def entryMatches (hashFn : Content → HashV) (target : HashV) (p : FPath) (t : FSTree) :
    List FPath :=
  match t with
  | .file h c =>
    if effHidden h then []
    else
      match c with
      | none => []
      | some c => if hashFn c = target then [p] else []
  | .dirE _ => []
  | .dir h l => if effHidden h then [] else entriesMatches hashFn target p l

/-- `entryMatches` extended over a directory listing. -/
def entriesMatches (hashFn : Content → HashV) (target : HashV) (p : FPath) (l : EntryList) :
    List FPath :=
  match l with
  | .nil => []
  | .cons n t rest =>
    entryMatches hashFn target (p ++ [n]) t ++ entriesMatches hashFn target p rest
end

/-- Visible matches under a search root.  The root itself is not
hidden-checked by `walk`, and a non-directory root is never read. -/
def rootMatches (hashFn : Content → HashV) (target : HashV) (p : FPath) (t : FSTree) :
    List FPath :=
  match t with
  | .dir _ l => entriesMatches hashFn target p l
  | _ => []

mutual
/-- Every visible (unhidden) entry in this subtree is listable and
readable: visible files have readable content, visible directories have a
listing and recursively satisfy the same.  Hidden entries are
unconstrained (the walk skips them). -/
def entryReadable : FSTree → Bool
  | .file h c => effHidden h || c.isSome
  | .dirE h => effHidden h
  | .dir h l => effHidden h || entriesReadable l

/-- `entryReadable` extended over a directory listing. -/
def entriesReadable : EntryList → Bool
  | .nil => true
  | .cons _ t rest => entryReadable t && entriesReadable rest
end

/-- Every visible entry under the search root is listable and readable
(the root's own hidden flag is irrelevant: `walk` never checks it; a
non-directory root is never read). -/
def rootReadable : FSTree → Bool
  | .file _ _ => true
  | .dirE _ => false
  | .dir _ l => entriesReadable l

mutual
/-- Removal of all hidden entries (including those whose hidden-check
errors, which the source's `.unwrap_or(true)` treats as hidden) from a
tree; used to state that `walk` is insensitive to hidden content. -/
def pruneTree : FSTree → FSTree
  | .file h c => .file h c
  | .dirE h => .dirE h
  | .dir h l => .dir h (pruneEntries l)

/-- `pruneTree` extended over a directory listing: entries whose
effective hidden flag is set are dropped entirely. -/
def pruneEntries : EntryList → EntryList
  | .nil => .nil
  | .cons n t rest =>
    if effHidden t.hiddenOf then pruneEntries rest
    else .cons n (pruneTree t) (pruneEntries rest)
end

/-- Models `handle_promise` from `src/main.rs` (lines 99-118).  A
`Promise<T>` is modelled by its completion state at the moment of the
call: `promise.ready()` returns `some t` once the spawned work has
finished with value `t`, so the slot `p : &mut Option<Promise<T>>` is an
`Option (Option T)`.  The source computes
`p.as_ref().map(|promise| promise.ready().map(f)).flatten()`, raises a
flag exactly when `ready()` returned `Some`, and clears the slot when the
flag is set; the embedding returns the result together with the final
state of the slot. -/
def handle_promise {T R : Type} (p : Option (Option T)) (f : T → R) :
    Option R × Option (Option T) :=
  let res := (p.map (fun promise => promise.map f)).join
  match p with
  | some (some _) => (res, none)
  | _ => (res, p)

/-- `Relation` from `src/graph.rs`. -/
inductive Relation where
  | conflict
  | progress
  | insight
  | related
deriving DecidableEq

/-- `Conn` from `src/graph.rs`: the edge payload — an optional comment
blob plus the relation. -/
structure Conn where
  comment : Option Blob
  relation : Relation
deriving DecidableEq

/-- A node of the serialized graph: payload (`Option<Blob>`), label, and
canvas position.  Positions are `f32` pairs (`egui::Pos2`) in the source;
they are modelled as integer pairs. -/
structure GNode where
  payload : Option Blob
  label : String
  x : Int
  y : Int
deriving DecidableEq

/-- An edge of the serialized graph: endpoint node indices, payload
(`Conn`), and label. -/
structure GEdge where
  source : Nat
  target : Nat
  payload : Conn
  label : String
deriving DecidableEq

/-- `Pinboard` from `src/pinboard.rs`: UUID, title, and the graph with
nodes and edges keyed by index.  The 128-bit UUID is modelled as a
natural number. -/
structure PinboardM where
  uuid : Nat
  title : String
  nodes : List (Nat × GNode)
  edges : List (Nat × GEdge)
deriving DecidableEq

/-- A JSON value: the codomain of the modelled serializer. -/
inductive JVal where
  | nullv
  | boolv (b : Bool)
  | numv (n : Int)
  | strv (s : String)
  | arrv (items : List JVal)
  | objv (fields : List (String × JVal))

/-- A path serializes as an array of its component strings. -/
def encodePath (p : FPath) : JVal := .arrv (p.map JVal.strv)

/-- Decode a list of JSON strings back into path components. -/
def decodePathItems : List JVal → Option FPath
  | [] => some []
  | .strv s :: rest => (decodePathItems rest).map (fun l => s :: l)
  | _ => none

def decodePath : JVal → Option FPath
  | .arrv items => decodePathItems items
  | _ => none

/-- The `BlobType` enum tag, as serde serializes unit variants. -/
def encodeBlobType : BlobType → JVal
  | .pinboardGraph => .strv "PinboardGraph"
  | .file => .strv "File"

def decodeBlobType : JVal → Option BlobType
  | .strv "PinboardGraph" => some .pinboardGraph
  | .strv "File" => some .file
  | _ => none

/-- A `Blob` serializes as an object with its three fields. -/
def encodeBlob (b : Blob) : JVal :=
  .objv [("ty", encodeBlobType b.ty), ("path", encodePath b.path),
    ("hash", .numv (Int.ofNat b.hash))]

def decodeBlob : JVal → Option Blob
  | .objv [("ty", jt), ("path", jp), ("hash", .numv (Int.ofNat h))] =>
    (decodeBlobType jt).bind fun ty =>
      (decodePath jp).map fun p => Blob.mk ty p h
  | _ => none

/-- `Option<Blob>` serializes as `null` or the blob itself. -/
def encodeOptBlob : Option Blob → JVal
  | none => .nullv
  | some b => encodeBlob b

def decodeOptBlob : JVal → Option (Option Blob)
  | .nullv => some none
  | j => (decodeBlob j).map some

/-- The `Relation` enum tag. -/
def encodeRelation : Relation → JVal
  | .conflict => .strv "Conflict"
  | .progress => .strv "Progress"
  | .insight => .strv "Insight"
  | .related => .strv "Related"

def decodeRelation : JVal → Option Relation
  | .strv "Conflict" => some .conflict
  | .strv "Progress" => some .progress
  | .strv "Insight" => some .insight
  | .strv "Related" => some .related
  | _ => none

/-- A `Conn` serializes as an object with comment and relation. -/
def encodeConn (c : Conn) : JVal :=
  .objv [("comment", encodeOptBlob c.comment), ("relation", encodeRelation c.relation)]

def decodeConn : JVal → Option Conn
  | .objv [("comment", jc), ("relation", jr)] =>
    (decodeOptBlob jc).bind fun com =>
      (decodeRelation jr).map fun rel => Conn.mk com rel
  | _ => none

/-- A node keyed by index: payload + label + position. -/
def encodeNodeEntry (i : Nat) (n : GNode) : JVal :=
  .objv [("idx", .numv (Int.ofNat i)), ("payload", encodeOptBlob n.payload),
    ("label", .strv n.label), ("x", .numv n.x), ("y", .numv n.y)]

def decodeNodeEntry : JVal → Option (Nat × GNode)
  | .objv [("idx", .numv (Int.ofNat i)), ("payload", jp), ("label", .strv lbl),
      ("x", .numv x), ("y", .numv y)] =>
    (decodeOptBlob jp).map fun pl => (i, GNode.mk pl lbl x y)
  | _ => none

def encodeNodes : List (Nat × GNode) → List JVal
  | [] => []
  | (i, n) :: rest => encodeNodeEntry i n :: encodeNodes rest

def decodeNodes : List JVal → Option (List (Nat × GNode))
  | [] => some []
  | j :: rest =>
    (decodeNodeEntry j).bind fun x =>
      (decodeNodes rest).map fun l => x :: l

/-- An edge keyed by index: payload + label + endpoints. -/
def encodeEdgeEntry (i : Nat) (e : GEdge) : JVal :=
  .objv [("idx", .numv (Int.ofNat i)), ("from", .numv (Int.ofNat e.source)),
    ("to", .numv (Int.ofNat e.target)), ("payload", encodeConn e.payload),
    ("label", .strv e.label)]

def decodeEdgeEntry : JVal → Option (Nat × GEdge)
  | .objv [("idx", .numv (Int.ofNat i)), ("from", .numv (Int.ofNat s)),
      ("to", .numv (Int.ofNat tg)), ("payload", jc), ("label", .strv lbl)] =>
    (decodeConn jc).map fun pl => (i, GEdge.mk s tg pl lbl)
  | _ => none

def encodeEdges : List (Nat × GEdge) → List JVal
  | [] => []
  | (i, e) :: rest => encodeEdgeEntry i e :: encodeEdges rest

def decodeEdges : List JVal → Option (List (Nat × GEdge))
  | [] => some []
  | j :: rest =>
    (decodeEdgeEntry j).bind fun x =>
      (decodeEdges rest).map fun l => x :: l

/-- Modelled from the spec: the serde-derived JSON serializer that
`PinboardBuffer::save_to_path` invokes via
`serde_json::to_string(&pinboard)`.  The derive-generated codec is
library code absent from `src/`; per the spec the persisted document
contains the stable UUID, the title string, and the full graph (nodes
keyed by index with payload + label + position; edges keyed by index
with payload + label + endpoints). -/
def encodePinboard (pb : PinboardM) : JVal :=
  .objv [("uuid", .numv (Int.ofNat pb.uuid)), ("title", .strv pb.title),
    ("nodes", .arrv (encodeNodes pb.nodes)), ("edges", .arrv (encodeEdges pb.edges))]

/-- Modelled from the spec: the serde-derived JSON deserializer that
`PinlabApp::open_pinboard_from_path` invokes via
`serde_json::from_str::<Pinboard>`; it accepts the serializer's
document shape and reproduces UUID, title, nodes and edges. -/
def decodePinboard : JVal → Option PinboardM
  | .objv [("uuid", .numv (Int.ofNat u)), ("title", .strv ttl),
      ("nodes", .arrv jns), ("edges", .arrv jes)] =>
    (decodeNodes jns).bind fun ns =>
      (decodeEdges jes).map fun es => PinboardM.mk u ttl ns es
  | _ => none

/-- The distinguishable failures of the dialog-backed async operations:
the explicit user-cancellation error, or an I/O (or parse) failure. -/
inductive OpError where
  | cancelled
  | io
deriving DecidableEq

/-- `PinboardBuffer::save_as` (`src/pinboard.rs` lines 102-116):
`dialog` is the outcome of `FileDialog::save_file()` (`none` models the
dialog dismissed without a choice); a chosen path is passed to
`save_to_path`, whose outcome is the parameter `writeRes`; dismissal
returns the explicit "user didn't select path to save pinboard" error. -/
def save_as (dialog : Option FPath) (writeRes : FPath → Except OpError FPath) :
    Except OpError FPath :=
  match dialog with
  | some p => writeRes p
  | none => .error .cancelled

/-- `PinboardBuffer::add_blob` (`src/pinboard.rs` lines 208-219):
`dialog` is the outcome of `FileDialog::pick_file()`; dismissal is
turned into the explicit "user didn't select file" error by
`.ok_or(...)`; a chosen path is passed to `Blob::new`, whose outcome is
the parameter `mkBlob`. -/
def add_blob (dialog : Option FPath) (mkBlob : FPath → Except OpError Blob) :
    Except OpError Blob :=
  match dialog with
  | some p => mkBlob p
  | none => .error .cancelled

/-- `PinlabApp::open_pinboard` (`src/main.rs` lines 57-67): dismissal of
the picker returns the explicit "user canceled opening" error; a chosen
path is passed to `open_pinboard_from_path`, whose outcome is the
parameter `load`. -/
def open_pinboard (dialog : Option FPath) (load : FPath → Except OpError PinboardM) :
    Except OpError PinboardM :=
  match dialog with
  | some p => load p
  | none => .error .cancelled

/-- The part of `PinboardBuffer` the save promise handler mutates. -/
structure BufSaveState where
  path : Option FPath
  unsaved : Bool
deriving DecidableEq

/-- The `save_file_promise` handler in `PinboardBuffer::show`
(`src/pinboard.rs` lines 449-457): on `Ok(p)` it sets `self.path` and
clears `unsaved`; on `Err` it only writes the error to stderr. -/
def applySaveResult (st : BufSaveState) (r : Except OpError FPath) : BufSaveState :=
  match r with
  | .ok p => { st with path := some p, unsaved := false }
  | .error _ => st

/-- The `Either` index carried through the blob promises. -/
inductive EitherIdx where
  | edge (id : Nat)
  | node (id : Nat)

/-- `blob.path().file_name()`: the last path component (the source
unwraps the `Option`; the model defaults to the empty string). -/
def fileName (p : FPath) : String := (p.getLast?).getD ""

/-- Attach a blob to the node with the given index, relabelling it with
the blob's file name (`graph.node_mut(id)` branch of
`handle_update_blob_to_node`). -/
def setNode (nodes : List (Nat × GNode)) (id : Nat) (b : Blob) : List (Nat × GNode) :=
  nodes.map fun e =>
    if e.1 = id then (e.1, { e.2 with payload := some b, label := fileName b.path }) else e

/-- Attach a comment blob to the edge with the given index, relabelling
it (`graph.edge_mut(id)` branch of `handle_update_blob_to_node`). -/
def setEdgeComment (edges : List (Nat × GEdge)) (id : Nat) (b : Blob) : List (Nat × GEdge) :=
  edges.map fun e =>
    if e.1 = id then
      (e.1,
        { e.2 with
            payload := { e.2.payload with comment := some b }
            label := fileName b.path })
    else e

/-- `PinboardBuffer::handle_update_blob_to_node` (`src/pinboard.rs`
lines 496-524): attach the blob to the indexed node or edge and mark the
buffer unsaved. -/
def handle_update_blob_to_node (_unsaved : Bool) (pb : PinboardM) (which : EitherIdx)
    (b : Blob) : Bool × PinboardM :=
  match which with
  | .edge id => (true, { pb with edges := setEdgeComment pb.edges id b })
  | .node id => (true, { pb with nodes := setNode pb.nodes id b })

/-- The `update_blob_promise` handler in `PinboardBuffer::show`
(`src/pinboard.rs` lines 459-471): on `Ok` attach the blob via
`handle_update_blob_to_node`; on `Err` only write to stderr. -/
def applyUpdateBlobResult (unsaved : Bool) (pb : PinboardM)
    (r : EitherIdx × Except OpError Blob) : Bool × PinboardM :=
  match r.2 with
  | .ok b => handle_update_blob_to_node unsaved pb r.1 b
  | .error _ => (unsaved, pb)

/-- The board-opening pass of `PinlabApp::update` (`src/main.rs` lines
166-197) for one completed `boards_to_open` slot: `Ok(buffer)` registers
the buffer under its UUID (or marks an already-open one open); `Err` is
written to stderr and the slot dropped, leaving the registry unchanged. -/
def handleOpenSlot (pinboards : List (Nat × (PinboardM × Bool)))
    (r : Except OpError PinboardM) : List (Nat × (PinboardM × Bool)) :=
  match r with
  | .ok pb =>
    if (pinboards.map Prod.fst).contains pb.uuid then
      pinboards.map fun e => if e.1 = pb.uuid then (e.1, (e.2.1, true)) else e
    else pinboards ++ [(pb.uuid, (pb, true))]
  | .error _ => pinboards

/-- Hash function used by the concrete witnesses: the first byte of the
content (injective enough to distinguish the witness files). -/
def hashW : Content → HashV := fun c => c.headD 0

/-- Witness blob whose stored path has disappeared. -/
def blobW : Blob := Blob.mk BlobType.file ["home", "foo.txt"] 5

/-- Witness root for the unique-match repair: the sole match sits two
levels down, next to a non-matching file and a hidden matching file. -/
def treeUnique : FSTree :=
  .dir none (.cons "docs"
    (.dir (some false)
      (.cons "notes.md" (.file (some false) (some [7, 1]))
      (.cons ".secret" (.file (some true) (some [5, 9]))
      (.cons "sub"
        (.dir (some false)
          (.cons "foo_renamed.txt" (.file (some false) (some [5, 5])) .nil))
      .nil))))
    .nil)

/-- Counterexample root: a visible unreadable file listed before two
visible matching files. -/
def treeMultiUnreadable : FSTree :=
  .dir none (.cons "u.bin" (.file (some false) none)
    (.cons "a.txt" (.file (some false) (some [5, 1]))
    (.cons "b.txt" (.file (some false) (some [5, 2])) .nil)))

/-- Witness root: two visible matching files in different directories,
everything visible readable. -/
def treeMultiReadable : FSTree :=
  .dir none (.cons "a.txt" (.file (some false) (some [5, 1]))
    (.cons "sub"
      (.dir (some false) (.cons "b.txt" (.file (some false) (some [5, 2])) .nil))
    .nil))

/-- Counterexample root: an ambiguous fully-readable subdirectory listed
before a visible unreadable file. -/
def treeAmbigThenUnreadable : FSTree :=
  .dir none (.cons "d"
    (.dir (some false)
      (.cons "a.txt" (.file (some false) (some [5, 1]))
      (.cons "b.txt" (.file (some false) (some [5, 2])) .nil)))
    (.cons "u.bin" (.file (some false) none) .nil))

/-- Witness root: one visible match and one visible unreadable file. -/
def treeOneMatchUnreadable : FSTree :=
  .dir none (.cons "a.txt" (.file (some false) (some [5, 1]))
    (.cons "u.bin" (.file (some false) none) .nil))

theorem optOr_none_left (b : Option α) : optOr none b = b := rfl

theorem optOr_none_right (a : Option α) : optOr a none = a := by
  cases a <;> rfl

mutual
/-- If the loop body of `walk` succeeds on one entry, its count is the
number of visible matches under that entry (always at most one for a
single entry), and its result is the (unique) match if any. -/
theorem walkEntry_ok (hashFn : Content → HashV) (target : HashV) (p : FPath) (t : FSTree)
    (r : Option FPath) (c : Nat) (h : walkEntry hashFn target p t = .ok (r, c)) :
    c = (entryMatches hashFn target p t).length ∧ c ≤ 1 ∧
      r = (entryMatches hashFn target p t).head? := by
  cases t with
  | file hd cont =>
    simp only [walkEntry] at h
    cases hh : effHidden hd with
    | true =>
      simp [hh] at h
      simp [entryMatches, hh, ← h.1, ← h.2]
    | false =>
      simp only [hh] at h
      cases cont with
      | none => simp at h
      | some cbytes =>
        by_cases hm : hashFn cbytes = target
        · simp [hm] at h
          simp [entryMatches, hh, hm, ← h.1, ← h.2]
        · simp [hm] at h
          simp [entryMatches, hh, hm, ← h.1, ← h.2]
  | dirE hd =>
    simp only [walkEntry] at h
    cases hh : effHidden hd with
    | true =>
      simp [hh] at h
      simp [entryMatches, ← h.1, ← h.2]
    | false => simp [hh] at h
  | dir hd l =>
    simp only [walkEntry] at h
    cases hh : effHidden hd with
    | true =>
      simp [hh] at h
      simp [entryMatches, hh, ← h.1, ← h.2]
    | false =>
      simp only [hh] at h
      cases hsub : walkEntries hashFn target p l with
      | error e => rw [hsub] at h; simp at h
      | ok rc =>
        obtain ⟨res, count⟩ := rc
        rw [hsub] at h
        obtain ⟨hlen, hres⟩ := walkEntries_ok hashFn target p l res count hsub
        by_cases hcnt : count > 1
        · simp [hcnt] at h
        · simp only [hcnt, if_false, Bool.false_eq_true, reduceIte] at h
          have hle : count ≤ 1 := Nat.le_of_not_lt hcnt
          have hres' := hres hle
          cases res with
          | some m =>
            simp at h
            have hhead : (entriesMatches hashFn target p l).head? = some m := hres'.symm
            have hlen1 : (entriesMatches hashFn target p l).length = 1 := by
              have hge : 1 ≤ (entriesMatches hashFn target p l).length := by
                cases hml : entriesMatches hashFn target p l with
                | nil => rw [hml] at hhead; simp at hhead
                | cons x xs => simp [hml]
              omega
            obtain ⟨a, ha⟩ := List.length_eq_one.mp hlen1
            rw [ha] at hhead
            simp at hhead
            simp [entryMatches, hh, ha, hhead, ← h.1, ← h.2]
          | none =>
            simp at h
            have hhead : (entriesMatches hashFn target p l).head? = none := hres'.symm
            have hnil : entriesMatches hashFn target p l = [] :=
              List.head?_eq_none_iff.mp hhead
            simp [entryMatches, hh, hnil, ← h.1, ← h.2]

/-- If the whole loop of `walk` over a listing succeeds, its count is the
number of visible matches, and — when that count is at most one — its
result is the unique match if any. -/
theorem walkEntries_ok (hashFn : Content → HashV) (target : HashV) (p : FPath) (l : EntryList)
    (r : Option FPath) (c : Nat) (h : walkEntries hashFn target p l = .ok (r, c)) :
    c = (entriesMatches hashFn target p l).length ∧
      (c ≤ 1 → r = (entriesMatches hashFn target p l).head?) := by
  cases l with
  | nil =>
    simp only [walkEntries] at h
    simp at h
    simp [entriesMatches, ← h.1, ← h.2]
  | cons n t rest =>
    simp only [walkEntries] at h
    cases h1 : walkEntry hashFn target (p ++ [n]) t with
    | error e => rw [h1] at h; simp at h
    | ok rc1 =>
      obtain ⟨r1, c1⟩ := rc1
      rw [h1] at h
      cases h2 : walkEntries hashFn target p rest with
      | error e => rw [h2] at h; simp at h
      | ok rc2 =>
        obtain ⟨r2, c2⟩ := rc2
        rw [h2] at h
        simp at h
        obtain ⟨hr, hc⟩ := h
        obtain ⟨hlen1, hle1, hr1⟩ := walkEntry_ok hashFn target (p ++ [n]) t r1 c1 h1
        obtain ⟨hlen2, hr2⟩ := walkEntries_ok hashFn target p rest r2 c2 h2
        constructor
        · simp [entriesMatches, ← hc, hlen1, hlen2]
        · intro hle
          rw [← hc] at hle
          rw [← hr]
          rcases Nat.eq_zero_or_pos c1 with h0 | hpos
          · have hm1 : entryMatches hashFn target (p ++ [n]) t = [] := by
              rw [h0] at hlen1
              exact (List.length_eq_zero.mp hlen1.symm)
            have hr1' : r1 = none := by rw [hr1, hm1]; rfl
            rw [hr1', optOr_none_right]
            have : c2 ≤ 1 := by omega
            rw [hr2 this]
            simp [entriesMatches, hm1]
          · have hc1 : c1 = 1 := by omega
            have hc2 : c2 = 0 := by omega
            have hm2 : entriesMatches hashFn target p rest = [] := by
              rw [hc2] at hlen2
              exact (List.length_eq_zero.mp hlen2.symm)
            have hr2' : r2 = none := by
              rw [hr2 (by omega), hm2]; rfl
            rw [hr2', optOr_none_left, hr1]
            simp [entriesMatches, hm2]
end

/-- If `walk` succeeds, there was at most one visible match under the
root, and the result is exactly that match (if any). -/
theorem walk_ok (hashFn : Content → HashV) (target : HashV) (p : FPath) (t : FSTree)
    (r : Option FPath) (h : walk hashFn target p t = .ok r) :
    (rootMatches hashFn target p t).length ≤ 1 ∧
      r = (rootMatches hashFn target p t).head? := by
  cases t with
  | file hd cont =>
    simp only [walk] at h
    simp at h
    simp [rootMatches, ← h]
  | dirE hd => simp only [walk] at h; simp at h
  | dir hd l =>
    simp only [walk] at h
    cases hsub : walkEntries hashFn target p l with
    | error e => rw [hsub] at h; simp at h
    | ok rc =>
      obtain ⟨res, count⟩ := rc
      rw [hsub] at h
      by_cases hcnt : count > 1
      · simp [hcnt] at h
      · simp [hcnt] at h
        obtain ⟨hlen, hres⟩ := walkEntries_ok hashFn target p l res count hsub
        have hle : count ≤ 1 := Nat.le_of_not_lt hcnt
        constructor
        · simp only [rootMatches]
          omega
        · simp only [rootMatches]
          rw [← h]
          exact hres hle

mutual
/-- Over a subtree all of whose visible entries are listable and
readable, one loop iteration of `walk` succeeds with the exact visible
match (and count) when there is at most one, and fails with the
ambiguity error when there are two or more. -/
theorem walkEntry_readable (hashFn : Content → HashV) (target : HashV) (p : FPath)
    (t : FSTree) (hrd : entryReadable t = true) :
    ((entryMatches hashFn target p t).length ≤ 1 →
      walkEntry hashFn target p t =
        .ok ((entryMatches hashFn target p t).head?,
          (entryMatches hashFn target p t).length)) ∧
    (2 ≤ (entryMatches hashFn target p t).length →
      walkEntry hashFn target p t = .error .multiMatch) := by
  cases t with
  | file hd cont =>
    cases hh : effHidden hd with
    | true =>
      constructor
      · intro _; simp [walkEntry, entryMatches, hh]
      · intro habs; simp [entryMatches, hh] at habs
    | false =>
      simp only [entryReadable, hh] at hrd
      simp at hrd
      obtain ⟨cbytes, hc⟩ := Option.isSome_iff_exists.mp hrd
      subst hc
      by_cases hm : hashFn cbytes = target
      · constructor
        · intro _; simp [walkEntry, entryMatches, hh, hm]
        · intro habs; simp [entryMatches, hh, hm] at habs
      · constructor
        · intro _; simp [walkEntry, entryMatches, hh, hm]
        · intro habs; simp [entryMatches, hh, hm] at habs
  | dirE hd =>
    cases hh : effHidden hd with
    | true =>
      constructor
      · intro _; simp [walkEntry, entryMatches, hh]
      · intro habs; simp [entryMatches] at habs
    | false => simp [entryReadable, hh] at hrd
  | dir hd l =>
    cases hh : effHidden hd with
    | true =>
      constructor
      · intro _; simp [walkEntry, entryMatches, hh]
      · intro habs; simp [entryMatches, hh] at habs
    | false =>
      simp only [entryReadable, hh] at hrd
      simp at hrd
      rcases walkEntries_readable hashFn target p l hrd with ⟨r, hok, hcond⟩ | ⟨herr, hge⟩
      · constructor
        · intro hle
          simp only [entryMatches, hh] at hle ⊢
          simp only [Bool.false_eq_true, if_false]
          simp only [Bool.false_eq_true, reduceIte] at hle
          rw [walkEntry, hok]
          simp only [hh]
          have hngt : ¬ (entriesMatches hashFn target p l).length > 1 := by omega
          simp only [hngt, if_false, Bool.false_eq_true, reduceIte]
          rw [hcond hle]
          cases hml : entriesMatches hashFn target p l with
          | nil => simp
          | cons x xs =>
            have hxs : xs = [] := by
              rw [hml] at hle
              simp at hle
              exact hle
            subst hxs
            simp
        · intro hge2
          simp only [entryMatches, hh] at hge2 ⊢
          simp only [Bool.false_eq_true, reduceIte] at hge2
          rw [walkEntry, hok]
          simp only [hh]
          have hgt : (entriesMatches hashFn target p l).length > 1 := by omega
          simp [hgt]
      · constructor
        · intro hle
          simp [entryMatches, hh] at hle
          omega
        · intro _
          rw [walkEntry, herr]
          simp [hh]

/-- Over a listing all of whose visible entries are listable and
readable, the `walk` loop either succeeds with the exact visible match
count, or fails with the ambiguity error raised inside an ambiguous
subdirectory (in which case there are at least two visible matches). -/
theorem walkEntries_readable (hashFn : Content → HashV) (target : HashV) (p : FPath)
    (l : EntryList) (hrd : entriesReadable l = true) :
    (∃ r, walkEntries hashFn target p l =
        .ok (r, (entriesMatches hashFn target p l).length) ∧
        ((entriesMatches hashFn target p l).length ≤ 1 →
          r = (entriesMatches hashFn target p l).head?)) ∨
    (walkEntries hashFn target p l = .error .multiMatch ∧
      2 ≤ (entriesMatches hashFn target p l).length) := by
  cases l with
  | nil =>
    left
    exact ⟨none, by simp [walkEntries, entriesMatches], by intro _; simp [entriesMatches]⟩
  | cons n t rest =>
    simp only [entriesReadable, Bool.and_eq_true] at hrd
    obtain ⟨hrt, hrr⟩ := hrd
    obtain ⟨hone, hmany⟩ := walkEntry_readable hashFn target (p ++ [n]) t hrt
    by_cases hle1 : (entryMatches hashFn target (p ++ [n]) t).length ≤ 1
    · have hok1 := hone hle1
      rcases walkEntries_readable hashFn target p rest hrr with ⟨r2, hok2, hcond2⟩ | ⟨herr, hge⟩
      · left
        refine ⟨optOr r2 (entryMatches hashFn target (p ++ [n]) t).head?, ?_, ?_⟩
        · rw [walkEntries, hok1, hok2]
          simp [entriesMatches]
        · intro hle
          simp only [entriesMatches, List.length_append] at hle
          rcases Nat.eq_zero_or_pos (entryMatches hashFn target (p ++ [n]) t).length
            with h0 | hpos
          · have hm1 : entryMatches hashFn target (p ++ [n]) t = [] :=
              List.length_eq_zero.mp h0
            rw [hm1]
            simp only [List.head?_nil, optOr_none_right]
            rw [hcond2 (by omega)]
            simp [entriesMatches, hm1]
          · have hm2 : entriesMatches hashFn target p rest = [] := by
              have : (entriesMatches hashFn target p rest).length = 0 := by omega
              exact List.length_eq_zero.mp this
            rw [hcond2 (by simp [hm2]), hm2]
            simp only [List.head?_nil, optOr_none_left]
            simp [entriesMatches, hm2]
      · right
        constructor
        · rw [walkEntries, hok1, herr]
        · simp only [entriesMatches, List.length_append]
          omega
    · have herr1 := hmany (by omega)
      right
      constructor
      · rw [walkEntries, herr1]
      · simp only [entriesMatches, List.length_append]
        omega
end

/-- Over a search root all of whose visible entries are listable and
readable, `walk` returns the unique visible match (or `none`) when there
is at most one, and the ambiguity error when there are two or more. -/
theorem walk_readable (hashFn : Content → HashV) (target : HashV) (p : FPath)
    (t : FSTree) (hrd : rootReadable t = true) :
    ((rootMatches hashFn target p t).length ≤ 1 →
      walk hashFn target p t = .ok (rootMatches hashFn target p t).head?) ∧
    (2 ≤ (rootMatches hashFn target p t).length →
      walk hashFn target p t = .error .multiMatch) := by
  cases t with
  | file hd cont =>
    constructor
    · intro _; simp [walk, rootMatches]
    · intro habs; simp [rootMatches] at habs
  | dirE hd => simp [rootReadable] at hrd
  | dir hd l =>
    simp only [rootReadable] at hrd
    rcases walkEntries_readable hashFn target p l hrd with ⟨r, hok, hcond⟩ | ⟨herr, hge⟩
    · constructor
      · intro hle
        simp only [rootMatches] at hle ⊢
        rw [walk, hok]
        have hngt : ¬ (entriesMatches hashFn target p l).length > 1 := by omega
        simp only [hngt, if_false, Bool.false_eq_true, reduceIte]
        rw [hcond hle]
      · intro hge2
        simp only [rootMatches] at hge2
        rw [walk, hok]
        have hgt : (entriesMatches hashFn target p l).length > 1 := by omega
        simp [hgt]
    · constructor
      · intro hle
        simp only [rootMatches] at hle
        omega
      · intro _
        rw [walk, herr]

/-- With two or more visible matches under the root, `walk` always fails
(with some error — not necessarily the ambiguity error when parts of the
tree are unreadable). -/
theorem walk_multi_error (hashFn : Content → HashV) (target : HashV) (p : FPath)
    (t : FSTree) (h2 : 2 ≤ (rootMatches hashFn target p t).length) :
    ∃ e, walk hashFn target p t = .error e := by
  cases hw : walk hashFn target p t with
  | ok r =>
    exfalso
    have := walk_ok hashFn target p t r hw
    omega
  | error e => exact ⟨e, rfl⟩

/-- A hidden (or hidden-check-errored) entry contributes nothing to the
walk: the loop body skips it. -/
theorem walkEntry_hidden (hashFn : Content → HashV) (target : HashV) (p : FPath)
    (t : FSTree) (hh : effHidden t.hiddenOf = true) :
    walkEntry hashFn target p t = .ok (none, 0) := by
  cases t with
  | file hd cont => simp only [FSTree.hiddenOf] at hh; simp [walkEntry, hh]
  | dirE hd => simp only [FSTree.hiddenOf] at hh; simp [walkEntry, hh]
  | dir hd l => simp only [FSTree.hiddenOf] at hh; simp [walkEntry, hh]

/-- Dropping a hidden head entry does not change the walk of a listing. -/
theorem walkEntries_cons_hidden (hashFn : Content → HashV) (target : HashV) (p : FPath)
    (n : String) (t : FSTree) (rest : EntryList) (hh : effHidden t.hiddenOf = true) :
    walkEntries hashFn target p (.cons n t rest) = walkEntries hashFn target p rest := by
  have hht := walkEntry_hidden hashFn target (p ++ [n]) t hh
  simp only [walkEntries, hht]
  cases hrest : walkEntries hashFn target p rest with
  | error e => rfl
  | ok rc =>
    obtain ⟨r2, c2⟩ := rc
    simp [optOr_none_right]

mutual
/-- One loop iteration of `walk` is insensitive to hidden content inside
the entry. -/
theorem walkEntry_prune (hashFn : Content → HashV) (target : HashV) (p : FPath)
    (t : FSTree) :
    walkEntry hashFn target p (pruneTree t) = walkEntry hashFn target p t := by
  cases t with
  | file hd cont => rfl
  | dirE hd => rfl
  | dir hd l =>
    simp only [pruneTree, walkEntry]
    rw [walkEntries_prune hashFn target p l]

/-- The walk of a listing is unchanged when all hidden entries (including
those whose hidden-check errors) are removed. -/
theorem walkEntries_prune (hashFn : Content → HashV) (target : HashV) (p : FPath)
    (l : EntryList) :
    walkEntries hashFn target p (pruneEntries l) = walkEntries hashFn target p l := by
  cases l with
  | nil => rfl
  | cons n t rest =>
    simp only [pruneEntries]
    cases hh : effHidden t.hiddenOf with
    | true =>
      simp only [reduceIte]
      rw [walkEntries_cons_hidden hashFn target p n t rest hh]
      exact walkEntries_prune hashFn target p rest
    | false =>
      simp only [Bool.false_eq_true, reduceIte]
      simp only [walkEntries]
      rw [walkEntry_prune hashFn target (p ++ [n]) t,
        walkEntries_prune hashFn target p rest]
end

mutual
/-- If a visible entry of the subtree is unlistable or unreadable, the
loop iteration for it fails. -/
theorem walkEntry_unreadable (hashFn : Content → HashV) (target : HashV) (p : FPath)
    (t : FSTree) (hrd : entryReadable t = false) :
    ∃ e, walkEntry hashFn target p t = .error e := by
  cases t with
  | file hd cont =>
    cases hh : effHidden hd with
    | true => simp [entryReadable, hh] at hrd
    | false =>
      cases cont with
      | some c => simp [entryReadable, hh] at hrd
      | none => exact ⟨.readFailed, by simp [walkEntry, hh]⟩
  | dirE hd =>
    cases hh : effHidden hd with
    | true => simp [entryReadable, hh] at hrd
    | false => exact ⟨.listFailed, by simp [walkEntry, hh]⟩
  | dir hd l =>
    cases hh : effHidden hd with
    | true => simp [entryReadable, hh] at hrd
    | false =>
      have hl : entriesReadable l = false := by
        simp [entryReadable, hh] at hrd
        exact hrd
      obtain ⟨e, he⟩ := walkEntries_unreadable hashFn target p l hl
      exact ⟨e, by simp [walkEntry, hh, he]⟩

/-- If some visible entry of the listing is unlistable or unreadable, the
walk of the listing fails. -/
theorem walkEntries_unreadable (hashFn : Content → HashV) (target : HashV) (p : FPath)
    (l : EntryList) (hrd : entriesReadable l = false) :
    ∃ e, walkEntries hashFn target p l = .error e := by
  cases l with
  | nil => simp [entriesReadable] at hrd
  | cons n t rest =>
    cases hrt : entryReadable t with
    | false =>
      obtain ⟨e, he⟩ := walkEntry_unreadable hashFn target (p ++ [n]) t hrt
      exact ⟨e, by simp [walkEntries, he]⟩
    | true =>
      have hrest : entriesReadable rest = false := by
        simp only [entriesReadable, hrt, Bool.true_and] at hrd
        exact hrd
      obtain ⟨e, he⟩ := walkEntries_unreadable hashFn target p rest hrest
      cases hw : walkEntry hashFn target (p ++ [n]) t with
      | error e2 => exact ⟨e2, by simp [walkEntries, hw]⟩
      | ok rc =>
        obtain ⟨r1, c1⟩ := rc
        exact ⟨e, by simp [walkEntries, hw, he]⟩
end

/-- If some visible entry under the root is unlistable or unreadable (or
the root itself is an unlistable directory), `walk` fails. -/
theorem walk_unreadable (hashFn : Content → HashV) (target : HashV) (p : FPath)
    (t : FSTree) (hrd : rootReadable t = false) :
    ∃ e, walk hashFn target p t = .error e := by
  cases t with
  | file hd cont => simp [rootReadable] at hrd
  | dirE hd => exact ⟨.listFailed, rfl⟩
  | dir hd l =>
    simp only [rootReadable] at hrd
    obtain ⟨e, he⟩ := walkEntries_unreadable hashFn target p l hrd
    exact ⟨e, by simp [walk, he]⟩

mutual
/-- The ambiguity error is only ever raised when at least two visible
matches exist under the entry. -/
theorem walkEntry_multi (hashFn : Content → HashV) (target : HashV) (p : FPath)
    (t : FSTree) (h : walkEntry hashFn target p t = .error .multiMatch) :
    2 ≤ (entryMatches hashFn target p t).length := by
  cases t with
  | file hd cont =>
    exfalso
    cases hh : effHidden hd with
    | true => simp [walkEntry, hh] at h
    | false =>
      cases cont with
      | none => simp [walkEntry, hh] at h
      | some c => by_cases hm : hashFn c = target <;> simp [walkEntry, hh, hm] at h
  | dirE hd =>
    exfalso
    cases hh : effHidden hd with
    | true => simp [walkEntry, hh] at h
    | false => simp [walkEntry, hh] at h
  | dir hd l =>
    cases hh : effHidden hd with
    | true => exfalso; simp [walkEntry, hh] at h
    | false =>
      simp only [walkEntry, hh, Bool.false_eq_true, reduceIte] at h
      cases hsub : walkEntries hashFn target p l with
      | error e =>
        rw [hsub] at h
        simp at h
        have hm := walkEntries_multi hashFn target p l (h ▸ hsub)
        simp only [entryMatches, hh, Bool.false_eq_true, reduceIte]
        omega
      | ok rc =>
        obtain ⟨res, count⟩ := rc
        rw [hsub] at h
        by_cases hcnt : count > 1
        · obtain ⟨hlen, _⟩ := walkEntries_ok hashFn target p l res count hsub
          simp only [entryMatches, hh, Bool.false_eq_true, reduceIte]
          omega
        · exfalso
          simp [hcnt] at h
          cases res <;> simp at h

/-- The ambiguity error is only ever raised when at least two visible
matches exist under the listing. -/
theorem walkEntries_multi (hashFn : Content → HashV) (target : HashV) (p : FPath)
    (l : EntryList) (h : walkEntries hashFn target p l = .error .multiMatch) :
    2 ≤ (entriesMatches hashFn target p l).length := by
  cases l with
  | nil => simp [walkEntries] at h
  | cons n t rest =>
    simp only [walkEntries] at h
    cases h1 : walkEntry hashFn target (p ++ [n]) t with
    | error e =>
      rw [h1] at h
      simp at h
      have hm := walkEntry_multi hashFn target (p ++ [n]) t (h ▸ h1)
      simp only [entriesMatches, List.length_append]
      omega
    | ok rc =>
      obtain ⟨r1, c1⟩ := rc
      rw [h1] at h
      cases h2 : walkEntries hashFn target p rest with
      | error e =>
        rw [h2] at h
        simp at h
        have hm := walkEntries_multi hashFn target p rest (h ▸ h2)
        simp only [entriesMatches, List.length_append]
        omega
      | ok rc2 =>
        obtain ⟨r2, c2⟩ := rc2
        rw [h2] at h
        simp at h
end

/-- `walk` returns the ambiguity error only when at least two visible
matches exist under the root. -/
theorem walk_multi_implies (hashFn : Content → HashV) (target : HashV) (p : FPath)
    (t : FSTree) (h : walk hashFn target p t = .error .multiMatch) :
    2 ≤ (rootMatches hashFn target p t).length := by
  cases t with
  | file hd cont => simp [walk] at h
  | dirE hd => simp [walk] at h
  | dir hd l =>
    simp only [walk] at h
    cases hsub : walkEntries hashFn target p l with
    | error e =>
      rw [hsub] at h
      simp at h
      have hm := walkEntries_multi hashFn target p l (h ▸ hsub)
      simp only [rootMatches]
      omega
    | ok rc =>
      obtain ⟨res, count⟩ := rc
      rw [hsub] at h
      by_cases hcnt : count > 1
      · obtain ⟨hlen, _⟩ := walkEntries_ok hashFn target p l res count hsub
        simp only [rootMatches]
        omega
      · simp [hcnt] at h

theorem decodePathItems_encode (p : FPath) :
    decodePathItems (p.map JVal.strv) = some p := by
  induction p with
  | nil => rfl
  | cons s rest ih => simp [decodePathItems, ih]

theorem decodePath_encode (p : FPath) : decodePath (encodePath p) = some p := by
  simp [decodePath, encodePath, decodePathItems_encode]

theorem decodeBlobType_encode (ty : BlobType) :
    decodeBlobType (encodeBlobType ty) = some ty := by
  cases ty <;> rfl

theorem decodeBlob_encode (b : Blob) : decodeBlob (encodeBlob b) = some b := by
  obtain ⟨ty, p, h⟩ := b
  have heq : decodeBlob (encodeBlob (Blob.mk ty p h)) =
      (decodeBlobType (encodeBlobType ty)).bind fun ty2 =>
        (decodePath (encodePath p)).map fun p2 => Blob.mk ty2 p2 h := rfl
  rw [heq, decodeBlobType_encode, decodePath_encode]
  rfl

theorem decodeOptBlob_encode (ob : Option Blob) :
    decodeOptBlob (encodeOptBlob ob) = some ob := by
  cases ob with
  | none => rfl
  | some b =>
    have heq : decodeOptBlob (encodeOptBlob (some b)) =
        (decodeBlob (encodeBlob b)).map some := rfl
    rw [heq, decodeBlob_encode]
    rfl

theorem decodeRelation_encode (r : Relation) :
    decodeRelation (encodeRelation r) = some r := by
  cases r <;> rfl

theorem decodeConn_encode (c : Conn) : decodeConn (encodeConn c) = some c := by
  obtain ⟨com, rel⟩ := c
  have heq : decodeConn (encodeConn (Conn.mk com rel)) =
      (decodeOptBlob (encodeOptBlob com)).bind fun com2 =>
        (decodeRelation (encodeRelation rel)).map fun rel2 => Conn.mk com2 rel2 := rfl
  rw [heq, decodeOptBlob_encode, decodeRelation_encode]
  rfl

theorem decodeNodeEntry_encode (i : Nat) (n : GNode) :
    decodeNodeEntry (encodeNodeEntry i n) = some (i, n) := by
  obtain ⟨pl, lbl, x, y⟩ := n
  have heq : decodeNodeEntry (encodeNodeEntry i (GNode.mk pl lbl x y)) =
      (decodeOptBlob (encodeOptBlob pl)).map fun pl2 => (i, GNode.mk pl2 lbl x y) := rfl
  rw [heq, decodeOptBlob_encode]
  rfl

theorem decodeNodes_encode (ns : List (Nat × GNode)) :
    decodeNodes (encodeNodes ns) = some ns := by
  induction ns with
  | nil => rfl
  | cons hd rest ih =>
    obtain ⟨i, n⟩ := hd
    simp [encodeNodes, decodeNodes, decodeNodeEntry_encode, ih]

theorem decodeEdgeEntry_encode (i : Nat) (e : GEdge) :
    decodeEdgeEntry (encodeEdgeEntry i e) = some (i, e) := by
  obtain ⟨s, tg, pl, lbl⟩ := e
  have heq : decodeEdgeEntry (encodeEdgeEntry i (GEdge.mk s tg pl lbl)) =
      (decodeConn (encodeConn pl)).map fun pl2 => (i, GEdge.mk s tg pl2 lbl) := rfl
  rw [heq, decodeConn_encode]
  rfl

theorem decodeEdges_encode (es : List (Nat × GEdge)) :
    decodeEdges (encodeEdges es) = some es := by
  induction es with
  | nil => rfl
  | cons hd rest ih =>
    obtain ⟨i, e⟩ := hd
    simp [encodeEdges, decodeEdges, decodeEdgeEntry_encode, ih]

/-- C4: During repair, `Blob::walk` never matches a hidden entry: the
outcome of `walk` — the returned match, the ambiguity decision, and any
error — is identical on the tree with every hidden entry removed, where
"hidden" includes entries whose hidden-check itself errors (the source's
`.unwrap_or(true)` fail-closed policy, modelled by `effHidden`).  Hence a
file whose content hashes to the target is neither returned nor counted
toward ambiguity when it is hidden or lies anywhere under a hidden
directory. -/
theorem walk_ignores_hidden (hashFn : Content → HashV) (target : HashV) (p : FPath)
    (t : FSTree) :
    walk hashFn target p (pruneTree t) = walk hashFn target p t := by
  cases t with
  | file hd cont => rfl
  | dirE hd => rfl
  | dir hd l =>
    simp only [pruneTree, walk]
    rw [walkEntries_prune hashFn target p l]

/-- C2: for every blob whose stored path does not exist
(`try_exists = Ok(false)`) and every search root all of whose visible
entries are listable and readable and under which exactly one unhidden
file — at any nesting depth — has content hashing to the blob's stored
hash, `Blob::update` returns `Ok` and sets `blob.path` to that file's
location. -/
theorem update_unique_match_repairs (hashFn : Content → HashV) (rootPath : FPath)
    (root : FSTree) (b : Blob) (p : FPath)
    (hrd : rootReadable root = true)
    (hm : rootMatches hashFn b.hash rootPath root = [p]) :
    update hashFn .no rootPath root b = (.ok (), { b with path := p }) := by
  have hw := (walk_readable hashFn b.hash rootPath root hrd).1 (by rw [hm]; simp)
  rw [hm] at hw
  simp only [List.head?_cons] at hw
  simp [update, hw]

/-- Witness for C2: the sole match sits two levels below the root, next
to a non-matching file and a hidden matching file. -/
theorem update_unique_match_repairs_witness :
    rootReadable treeUnique = true ∧
    rootMatches hashW blobW.hash ["root"] treeUnique =
      [["root", "docs", "sub", "foo_renamed.txt"]] ∧
    update hashW .no ["root"] treeUnique blobW =
      (.ok (), { blobW with path := ["root", "docs", "sub", "foo_renamed.txt"] }) :=
  ⟨by decide, by decide,
    update_unique_match_repairs hashW ["root"] treeUnique blobW
      ["root", "docs", "sub", "foo_renamed.txt"] (by decide) (by decide)⟩

/-- C1 counterexample: a root with two visible matching files and a
visible unreadable file listed before them; `update` returns the read
I/O error, not the ambiguity error, although two unhidden files under
the root hash to the blob's stored hash. -/
theorem update_multi_io_counterexample :
    2 ≤ (rootMatches hashW blobW.hash ["root"] treeMultiUnreadable).length ∧
    update hashW .no ["root"] treeMultiUnreadable blobW =
      (.error .readFailed, blobW) ∧
    FsError.readFailed ≠ FsError.multiMatch :=
  ⟨by decide, rfl, by decide⟩

/-- C1 (amended): with two or more unhidden matching files under the
search root, `Blob::update` on a missing stored path always returns an
error and leaves the blob — in particular `blob.path` — unchanged; the
error is the "multiple candidates, refusing to auto-repair" ambiguity
error whenever every visible entry under the root is also listable and
readable (otherwise an I/O error encountered during the walk may be
returned instead).  Uniqueness is judged over the entire subtree: a
match in one directory does not stop counting matches in sibling
directories. -/
theorem update_multi_match_errors (hashFn : Content → HashV) (rootPath : FPath)
    (root : FSTree) (b : Blob)
    (hm : 2 ≤ (rootMatches hashFn b.hash rootPath root).length) :
    (∃ e, update hashFn .no rootPath root b = (.error e, b)) ∧
    (rootReadable root = true →
      update hashFn .no rootPath root b = (.error .multiMatch, b)) := by
  constructor
  · obtain ⟨e, he⟩ := walk_multi_error hashFn b.hash rootPath root hm
    exact ⟨e, by simp [update, he]⟩
  · intro hrd
    have hw := (walk_readable hashFn b.hash rootPath root hrd).2 hm
    simp [update, hw]

/-- Witness for C1 (amended): two readable matches in sibling
directories give the ambiguity error, path unchanged. -/
theorem update_multi_match_errors_witness :
    2 ≤ (rootMatches hashW blobW.hash ["root"] treeMultiReadable).length ∧
    rootReadable treeMultiReadable = true ∧
    update hashW .no ["root"] treeMultiReadable blobW = (.error .multiMatch, blobW) :=
  ⟨by decide, by decide,
    (update_multi_match_errors hashW ["root"] treeMultiReadable blobW (by decide)).2
      (by decide)⟩

/-- C5: when the stored path exists and is readable with content `c`,
`Blob::update` returns `Ok`, overwrites `hash` with the content hash of
`c`, and leaves `path` unchanged; with the content held fixed, calling
`update` twice yields the same blob as calling it once (idempotence). -/
theorem update_exists_idempotent (hashFn : Content → HashV) (rootPath : FPath)
    (root : FSTree) (c : Content) (b : Blob) :
    update hashFn (.yes (some c)) rootPath root b =
      (.ok (), { b with hash := hashFn c }) ∧
    ((update hashFn (.yes (some c)) rootPath root b).2).path = b.path ∧
    (update hashFn (.yes (some c)) rootPath root
        ((update hashFn (.yes (some c)) rootPath root b).2)).2 =
      (update hashFn (.yes (some c)) rootPath root b).2 :=
  ⟨rfl, rfl, rfl⟩

/-- C6: when checking existence of the stored path fails for a reason
other than "does not exist" (`try_exists` returns `Err`), `Blob::update`
returns `Ok` and is a complete no-op: the blob (path, hash, kind) is
returned entirely unchanged, and no hash recomputation or search is
performed — the result does not depend on the search root at all. -/
theorem update_existscheck_err_noop (hashFn : Content → HashV) (rootPath : FPath)
    (root : FSTree) (b : Blob) :
    update hashFn .err rootPath root b = (.ok (), b) := rfl

/-- C10: every call of `Blob::update` leaves `ty` unchanged and never
modifies both `path` and `hash` in the same call: when the stored path
exists at most `hash` changes; when it does not exist at most `path`
changes (after a successful repair the stored hash is kept as-is, not
recomputed); when the existence check errors nothing changes. -/
theorem update_frame (hashFn : Content → HashV) (rootPath : FPath) (root : FSTree)
    (b : Blob) :
    (∀ exc, ((update hashFn exc rootPath root b).2).ty = b.ty) ∧
    (∀ c, ((update hashFn (.yes c) rootPath root b).2).path = b.path) ∧
    ((update hashFn .no rootPath root b).2).hash = b.hash ∧
    (update hashFn .err rootPath root b).2 = b := by
  refine ⟨?_, ?_, ?_, rfl⟩
  · intro exc
    cases exc with
    | yes c => cases c <;> rfl
    | err => rfl
    | no =>
      simp only [update]
      cases walk hashFn b.hash rootPath root with
      | error e => rfl
      | ok r => cases r <;> rfl
  · intro c
    cases c <;> rfl
  · simp only [update]
    cases walk hashFn b.hash rootPath root with
    | error e => rfl
    | ok r => cases r <;> rfl

/-- C9 counterexample: the root contains a visible unreadable file
(`u.bin`), yet `update` returns the ambiguity error raised inside a
fully-readable ambiguous subdirectory listed before it — not the read
I/O error the claim says is returned. -/
theorem update_unreadable_ambiguity_counterexample :
    rootReadable treeAmbigThenUnreadable = false ∧
    update hashW .no ["root"] treeAmbigThenUnreadable blobW =
      (.error .multiMatch, blobW) ∧
    FsError.multiMatch ≠ FsError.readFailed ∧
    FsError.multiMatch ≠ FsError.listFailed :=
  ⟨by decide, rfl, by decide, by decide⟩

/-- C9 (amended): during repair (stored path missing), if some visible
entry under the search root is unlistable or unreadable, `Blob::update`
returns an error and leaves the blob unchanged — even when a unique
matching file exists elsewhere under the root; the returned error is an
I/O error (never the ambiguity error) whenever at most one visible match
exists, though with two or more matches an ambiguity error detected
first may be returned instead.  In particular, the "zero matches
succeeds as a no-op" outcome is guaranteed only when every visible entry
in the subtree is listable and readable. -/
theorem update_unreadable_errors (hashFn : Content → HashV) (rootPath : FPath)
    (root : FSTree) (b : Blob) (hbad : rootReadable root = false) :
    (∃ e, update hashFn .no rootPath root b = (.error e, b)) ∧
    ((rootMatches hashFn b.hash rootPath root).length ≤ 1 →
      ∃ e, update hashFn .no rootPath root b = (.error e, b) ∧
        e ≠ FsError.multiMatch) := by
  obtain ⟨e, he⟩ := walk_unreadable hashFn b.hash rootPath root hbad
  refine ⟨⟨e, by simp [update, he]⟩, ?_⟩
  intro hle
  refine ⟨e, by simp [update, he], ?_⟩
  intro habs
  subst habs
  have := walk_multi_implies hashFn b.hash rootPath root he
  omega

/-- Witness for C9 (amended): one visible match plus one visible
unreadable file — the repair fails with a non-ambiguity error and the
blob is unchanged. -/
theorem update_unreadable_errors_witness :
    rootReadable treeOneMatchUnreadable = false ∧
    (rootMatches hashW blobW.hash ["root"] treeOneMatchUnreadable).length ≤ 1 ∧
    (∃ e, update hashW .no ["root"] treeOneMatchUnreadable blobW = (.error e, blobW) ∧
      e ≠ FsError.multiMatch) :=
  ⟨by decide, by decide,
    (update_unreadable_errors hashW ["root"] treeOneMatchUnreadable blobW (by decide)).2
      (by decide)⟩

/-- C3: `handle_promise` on a slot whose spawned work is incomplete
returns `none`, invokes no callback, and leaves the slot outstanding
(`some`); the first call after completion invokes the callback exactly
once with the result — returning `some (f t)` — and clears the slot to
`none`; every subsequent call returns `none` without invoking the
callback; and, being a total function over all slot states, no call
panics or errors. -/
theorem handle_promise_spec (T R : Type) (f : T → R) (t : T) :
    handle_promise (some (none : Option T)) f = (none, some none) ∧
    handle_promise (some (some t)) f = (some (f t), none) ∧
    handle_promise (handle_promise (some (some t)) f).2 f = (none, none) ∧
    handle_promise (none : Option (Option T)) f = (none, none) :=
  ⟨rfl, rfl, rfl, rfl⟩

/-- C7 counterexample: each of the three dialog-backed operations, when
the dialog is dismissed without a choice, yields an explicit
cancellation error — not an empty/no-op result. -/
theorem cancel_is_error_counterexample :
    save_as none (fun p => .ok p) = .error .cancelled ∧
    add_blob none (fun p => .ok (Blob.mk .file p 0)) = .error .cancelled ∧
    open_pinboard none (fun _ => .ok (PinboardM.mk 0 "t" [] [])) = .error .cancelled :=
  ⟨rfl, rfl, rfl⟩

/-- C7 (amended): when the user dismisses a file dialog without choosing
a path (save-as, attach-blob to a node or edge, open-pinboard), the
spawned operation yields an explicit cancellation error, which the
consuming call site swallows: the buffer's path/unsaved state, the
graph, and the open-board registry are left entirely unchanged — the
end-to-end effect is a no-op, with the error only logged. -/
theorem cancel_swallowed_noop (st : BufSaveState) (w : FPath → Except OpError FPath)
    (mk : FPath → Except OpError Blob) (ld : FPath → Except OpError PinboardM)
    (u : Bool) (pb : PinboardM) (which : EitherIdx)
    (boards : List (Nat × (PinboardM × Bool))) :
    save_as none w = .error .cancelled ∧
    applySaveResult st (save_as none w) = st ∧
    add_blob none mk = .error .cancelled ∧
    applyUpdateBlobResult u pb (which, add_blob none mk) = (u, pb) ∧
    open_pinboard none ld = .error .cancelled ∧
    handleOpenSlot boards (open_pinboard none ld) = boards :=
  ⟨rfl, rfl, rfl, rfl, rfl, rfl⟩

/-- C8: serializing a `Pinboard` to a document (as the save path does)
and deserializing that document (as the load path does) reproduces the
pinboard exactly: identical UUID, identical title, and identical node
and edge sets (payloads, labels, positions, and edge endpoints). -/
theorem pinboard_roundtrip (pb : PinboardM) :
    decodePinboard (encodePinboard pb) = some pb := by
  obtain ⟨u, ttl, ns, es⟩ := pb
  have heq : decodePinboard (encodePinboard (PinboardM.mk u ttl ns es)) =
      (decodeNodes (encodeNodes ns)).bind fun ns2 =>
        (decodeEdges (encodeEdges es)).map fun es2 => PinboardM.mk u ttl ns2 es2 := rfl
  rw [heq, decodeNodes_encode, decodeEdges_encode]
  rfl

end Pinbrd
